import Mathlib

/-!
Verification of the Flora_Pac range-processing and lookup-table pipeline.

This file gives a shallow embedding of the core pipeline of the repository:

* `flora_pac_lib/ip_data.py` : `merge_nets`, `merge_all`
* `flora_pac_lib/network_ops.py` : `fregment_net`, `fregment_nets`,
  `hash_address`, `hash_nets`, `calculate_prefix_range`
* `flora_pac_lib/pac_generator.py` : the emitted JavaScript matcher
  (`hash_masked_ip`, `prefixlen2mask`, `rebuild_net`, `lookup_ip`) and the
  `hashed_nets` table emission, plus `generate_balanced_proxy`.

An IPv4 network object of Python's `ipaddress` module is embedded as a pair
of natural numbers (base address, prefix length); the `ipaddress` module
guarantees the canonical-form invariant captured below by `Net.Valid`.
Machine integers are modelled as `Nat` with explicit `% 2 ^ 32` (or masking)
wherever the JavaScript runtime truncates; Python integers are unbounded and
are modelled as plain `Nat`/`Int`.
-/

namespace FloraPac

/-- An IPv4 network: `ipaddress.IPv4Network` seen as
(network address as a 32-bit unsigned integer, prefix length). -/
structure Net where
  base : Nat
  prefixlen : Nat
deriving DecidableEq, Repr

/-- Number of addresses covered by the network. -/
def Net.size (n : Net) : Nat := 2 ^ (32 - n.prefixlen)

/-- The canonical-form invariant `ipaddress.IPv4Network` guarantees for every
constructed network object: prefix length in range, 32-bit base address whose
low `32 - prefixlen` bits are zero. -/
def Net.Valid (n : Net) : Prop :=
  n.prefixlen ≤ 32 ∧ n.base < 2 ^ 32 ∧ n.base % n.size = 0

instance (n : Net) : Decidable n.Valid := by unfold Net.Valid; infer_instance

/-- The set of addresses covered by a network: `[base, base + size)`. -/
def Net.mem (n : Net) (a : Nat) : Prop :=
  n.base ≤ a ∧ a < n.base + n.size

instance (n : Net) (a : Nat) : Decidable (n.mem a) := by unfold Net.mem; infer_instance

/-- `IPv4Network.broadcast_address`: last address of the network. -/
def Net.broadcast (n : Net) : Nat := n.base + n.size - 1

/-- `IPv4Network.supernet()`: for prefix length 0 Python returns the network
itself; otherwise the enclosing network one prefix-length step up, with the
base address masked down accordingly. -/
def Net.supernet (n : Net) : Net :=
  if n.prefixlen = 0 then n
  else ⟨n.base / 2 ^ (32 - (n.prefixlen - 1)) * 2 ^ (32 - (n.prefixlen - 1)), n.prefixlen - 1⟩

/-- `ip_data.merge_nets`: merge two networks into their common supernet iff
they have the same supernet, the first network starts it and the second
network ends it.  (The Python `try/except ValueError` is dead code: `supernet`
never raises for a prefix-length difference of 1, because Python returns the
network itself at prefix length 0.) -/
def merge_nets (n1 n2 : Net) : Option Net :=
  if n1.supernet = n2.supernet ∧ n1.supernet.base = n1.base ∧
      n1.supernet.broadcast = n2.broadcast
  then some n1.supernet else none

/-- The strict-weak order `IPv4Network.__lt__` sorts by: network address
first, then netmask.  The netmask is strictly monotone in the prefix length,
so the order is lexicographic on (base, prefixlen). -/
def NetLE (x y : Net) : Prop :=
  x.base < y.base ∨ (x.base = y.base ∧ x.prefixlen ≤ y.prefixlen)

instance : DecidableRel NetLE := fun x y => by unfold NetLE; infer_instance

instance : IsTotal Net NetLE := ⟨by intro a b; unfold NetLE; omega⟩

instance : IsTrans Net NetLE := ⟨by intro a b c; unfold NetLE; omega⟩

instance : IsAntisymm Net NetLE := ⟨by
  intro a b h1 h2
  have hb : a.base = b.base := by unfold NetLE at h1 h2; omega
  have hp : a.prefixlen = b.prefixlen := by unfold NetLE at h1 h2; omega
  cases a; cases b; simp_all⟩

/-- Python's `sorted(networks)`.  Python uses a stable mergesort, but `NetLE`
is a total antisymmetric order on the embedded networks, so every sorted
permutation of the input is the same list; we use insertion sort. -/
def sortNets (ns : List Net) : List Net := List.insertionSort NetLE ns

/-- The body of the `while i < len(networks)` loop of `ip_data.merge_all`,
with the mutable list and cursor passed explicitly.
`networks[i-1] = merged; networks.pop(i)` becomes
`take (i-1) ++ merged :: drop (i+1)`.  The loop strictly decreases
`2 * length - i` at every iteration, so the fuel `2 * length` supplied by
`merge_all` is never exhausted (`mergeLoopF_fuel_irrel` below). -/
def mergeLoopF : Nat → List Net → Nat → List Net
  | 0, ns, _ => ns
  | fuel + 1, ns, i =>
    if i < ns.length then
      if i = 0 then
        mergeLoopF fuel ns (i + 1)
      else
        match merge_nets (ns.getD (i - 1) ⟨0, 0⟩) (ns.getD i ⟨0, 0⟩) with
        | none => mergeLoopF fuel ns (i + 1)
        | some m =>
            mergeLoopF fuel (ns.take (i - 1) ++ m :: ns.drop (i + 1))
              (if 1 < i then i - 1 else i)
    else ns

/-- `ip_data.merge_all`: empty input short-circuits to `[]`; otherwise sort
and run the adjacent-merge loop starting at cursor 1. -/
def merge_all (ns : List Net) : List Net :=
  match ns with
  | [] => []
  | _ => mergeLoopF (2 * ns.length) (sortNets ns) 1

/-- The target prefix length of `network_ops.fregment_net`:
`(net.prefixlen - 1) // mask_step * mask_step + mask_step` with Python's
floor division on unbounded integers (for prefix length 0 the dividend is
`-1`, so the computation is over `Int` with `Int.fdiv`). -/
def fregment_target (p s : Nat) : Int := ((p : Int) - 1).fdiv s * s + s

/-- `list(net.subnets(new_prefix=t))` for a valid new prefix `t`: the
`2 ^ (t - prefixlen)` consecutive subnets of prefix length `t`, in ascending
address order. -/
def subnetsList (n : Net) (t : Nat) : List Net :=
  (List.range (2 ^ (t - n.prefixlen))).map fun k => ⟨n.base + k * 2 ^ (32 - t), t⟩

/-- `network_ops.fregment_net`: compute the target prefix length and split.
Python's `subnets(new_prefix=target)` raises `ValueError` when
`target < prefixlen` or `target > 32`; `fregment_net` catches it and returns
`[net]` unchanged. -/
def fregment_net (n : Net) (s : Nat) : List Net :=
  if (n.prefixlen : Int) ≤ fregment_target n.prefixlen s ∧
      fregment_target n.prefixlen s ≤ 32
  then subnetsList n (fregment_target n.prefixlen s).toNat
  else [n]

/-- `network_ops.fregment_nets`: `results = []` then
`results.extend(fregment_net(net, mask_step))` for each net. -/
def fregment_nets (ns : List Net) (s : Nat) : List Net :=
  ns.foldl (fun acc n => acc ++ fregment_net n s) []

/-- `network_ops.hash_address`: `int(address) % mod_base`. -/
def hash_address (a mod_base : Nat) : Nat := a % mod_base

/-- `network_ops.hash_nets`: `mod_base` initially-empty buckets; each network
is appended to the bucket indexed by the hash of its network address. -/
def hash_nets (nets : List Net) (mod_base : Nat) : List (List Net) :=
  nets.foldl
    (fun h n =>
      h.set (hash_address n.base mod_base) (h.getD (hash_address n.base mod_base) [] ++ [n]))
    (List.replicate mod_base [])

/-- `network_ops.calculate_prefix_range`: `(32, 0)` on the empty list,
otherwise the min and max prefix lengths. -/
def calculate_prefix_range : List Net → Nat × Nat
  | [] => (32, 0)
  | n :: rest =>
      (rest.foldl (fun acc x => min acc x.prefixlen) n.prefixlen,
       rest.foldl (fun acc x => max acc x.prefixlen) n.prefixlen)

/-! ## The emitted JavaScript matcher (`pac_generator._generate_pac_content`)

The generated PAC file stores, per hash bucket, pairs
`[base >> (32 - prefixlen), prefixlen]` and looks a candidate address up by
probing prefix lengths `min_prefixlen, min_prefixlen + MASK_STEP, ...` up to
`max_prefixlen`.  JavaScript 32-bit shifts take their count mod 32; the
`hash_masked_ip` doubling loop and the per-byte extraction in `num2dot` /
`prefixlen2mask` are exact, which the `% 32` and `% 2 ^ 32` below mirror. -/

/-- JS `hash_masked_ip(ip, mask_len, mod_base)`: `net = ip >>> offset` (shift
count taken mod 32) followed by `offset` exact doublings, then `% mod_base`. -/
def hash_masked_ip (ip len mod_base : Nat) : Nat :=
  ip / 2 ^ ((32 - len) % 32) * 2 ^ (32 - len) % mod_base

/-- JS `prefixlen2mask`: `0xFFFFFFFF << (32 - prefixlen)` (shift count mod
32), re-read byte-wise as an unsigned 32-bit value.  For prefix length 0 this
yields `0xFFFFFFFF`, not 0 — preserved from the source. -/
def prefixlen2mask (pl : Nat) : Nat := 0xFFFFFFFF * 2 ^ ((32 - pl) % 32) % 2 ^ 32

/-- First component of JS `rebuild_net`: `pair[0] << (32 - pair[1])` (shift
count mod 32), read back as an unsigned 32-bit address. -/
def rebuild_base (v pl : Nat) : Nat := v * 2 ^ ((32 - pl) % 32) % 2 ^ 32

/-- The PAC standard-library `isInNet(ip, pattern, mask)`:
`(ip & mask) == (pattern & mask)` on 32-bit values. -/
def isInNet (a pat mask : Nat) : Bool := (a &&& mask) == (pat &&& mask)

/-- One stored pair tested by the inner loop of JS `lookup_ip`. -/
def matchPair (a : Nat) (pr : Nat × Nat) : Bool :=
  isInNet a (rebuild_base pr.1 pr.2) (prefixlen2mask pr.2)

/-- The pair `[int(net.network_address) >> (32 - net.prefixlen), m{net.prefixlen}]`
emitted into `hashed_nets` for one fragmented network (Python's shift on
unbounded integers, hence plain division). -/
def storedPair (n : Net) : Nat × Nat := (n.base / 2 ^ (32 - n.prefixlen), n.prefixlen)

/-- The `while (len <= max_prefixlen)` loop of JS `lookup_ip`, with the loop
variable `len` passed explicitly and a fuel argument bounding the iteration
count.  Each iteration advances `len` by `mask_step`, so for `mask_step ≥ 1`
the fuel `max_prefixlen + 1 - min_prefixlen` supplied by `is_member` is never
exhausted before `len > max_prefixlen`, and the fuel-out branch coincides
with the loop's own `return false` (for `mask_step = 0` the JS loop would
not terminate; every claim assumes a step of at least 1). -/
def lookupAux (buckets : List (List (Nat × Nat))) (hash_base mask_step maxp a : Nat) :
    Nat → Nat → Bool
  | 0, _ => false
  | fuel + 1, len =>
    if len ≤ maxp then
      if (buckets.getD (hash_masked_ip a len hash_base) []).any (matchPair a) then true
      else lookupAux buckets hash_base mask_step maxp a fuel (len + mask_step)
    else false

/-- The data the generated PAC file embeds for the matcher: the hashed pair
table plus the scalar constants `HASH_BASE`, `MASK_STEP`, `min_prefixlen`,
`max_prefixlen`. -/
structure LookupTable where
  buckets : List (List (Nat × Nat))
  hash_base : Nat
  mask_step : Nat
  min_prefixlen : Nat
  max_prefixlen : Nat
deriving DecidableEq, Repr

/-- The table-building pipeline of `pac_generator.generate_pac` /
`_generate_pac_content`: merge, compute the prefix range over the *merged*
networks, fragment, hash, and emit the stored pairs. -/
def build (input : List Net) (mask_step hash_base : Nat) : LookupTable :=
  { buckets := (hash_nets (fregment_nets (merge_all input) mask_step) hash_base).map
      (List.map storedPair)
    hash_base := hash_base
    mask_step := mask_step
    min_prefixlen := (calculate_prefix_range (merge_all input)).1
    max_prefixlen := (calculate_prefix_range (merge_all input)).2 }

/-- JS `lookup_ip(ip)` run against the embedded table. -/
def is_member (t : LookupTable) (a : Nat) : Bool :=
  lookupAux t.buckets t.hash_base t.mask_step t.max_prefixlen a
    (t.max_prefixlen + 1 - t.min_prefixlen) t.min_prefixlen

/-! ## Proxy-selection renderer (`pac_generator.generate_balanced_proxy`)

The JavaScript template strings are transcribed verbatim; braces and single
quotes of the JavaScript source appear as the escapes `\x7b`, `\x7d`, `\x27`. -/

/-- The `local_ip` balancing function body emitted by the source. -/
def localIpBalanceJS : String :=
  "\n  var local_ip_balance = function(proxies) \x7b\n    var i, k, l, myseg, s, _i;\n    myseg = parseInt(myIpAddress().split(\".\")[3]);\n    l = proxies.length;\n    k = myseg % l;\n    s = \x27\x27;\n    for (i = _i = 0; 0 <= l ? _i < l : _i > l; i = 0 <= l ? ++_i : --_i) \x7b\n      s += proxies[(k + i) % l];\n    \x7d\n    return s;\n  \x7d;\n"

/-- The `host` balancing function body emitted by the source. -/
def targetHostBalanceJS : String :=
  "\n  var target_host_balance = function(proxies, host) \x7b\n    var hash_string, i, k, l, s, _i;\n    hash_string = function(s) \x7b\n      var c, hash, _i, _len;\n      hash = 0;\n      for (_i = 0, _len = s.length; _i < _len; _i++) \x7b\n        c = s[_i];\n        hash = (hash << 5) - hash + c.charCodeAt(0);\n        hash = hash & hash & 0xFFFF;\n        hash &= 0xFFFF;\n      \x7d\n      return hash;\n    \x7d;\n    l = proxies.length;\n    k = hash_string(host) % l;\n    s = \x27\x27;\n    for (i = _i = 0; 0 <= l ? _i < l : _i > l; i = 0 <= l ? ++_i : --_i) \x7b\n      s += proxies[(k + i) % l];\n    \x7d\n    return s;\n  \x7d;\n"

/-- `pac_generator.generate_balanced_proxy`: three recognized balance modes;
any other value falls through every `elif` and Python implicitly returns
`None`, modelled by `Option.none`. -/
def generate_balanced_proxy (proxies : List String) (balance : String) : Option String :=
  if balance = "no" then
    some ("return \x27" ++ String.intercalate (";") proxies ++ "\x27 ;")
  else if balance = "local_ip" then
    some (localIpBalanceJS ++ "\n  return local_ip_balance([" ++
      String.intercalate (",") (proxies.map fun p => "\x27" ++ p ++ "\x27") ++ "]);\n")
  else if balance = "host" then
    some (targetHostBalanceJS ++ "\n  return target_host_balance([" ++
      String.intercalate (",") (proxies.map fun p => "\x27" ++ p ++ "\x27") ++ "], host);\n")
  else
    none

/-- Some network of the list covers the address. -/
def Covers (l : List Net) (a : Nat) : Prop := ∃ n ∈ l, n.mem a

instance (l : List Net) (a : Nat) : Decidable (Covers l a) := by
  unfold Covers
  infer_instance

/-- No two consecutive entries of the list merge: rerunning the merge loop
cannot change the list further. -/
def MergeClosed (l : List Net) : Prop := l.Chain' fun x y => merge_nets x y = none

instance (l : List Net) : Decidable (MergeClosed l) := by
  unfold MergeClosed
  exact List.decidableChain' l

/-- Two networks with no common address (interval form). -/
def Disj (x y : Net) : Prop := x.base + x.size ≤ y.base ∨ y.base + y.size ≤ x.base

instance (x y : Net) : Decidable (Disj x y) := by
  unfold Disj
  infer_instance

/-! ## Basic facts about embedded networks -/

theorem Net.size_pos (n : Net) : 0 < n.size := Nat.two_pow_pos _

theorem Net.size_dvd_total {n : Net} (h : n.prefixlen ≤ 32) : n.size ∣ 2 ^ 32 :=
  pow_dvd_pow 2 (by omega)

theorem Net.Valid.size_dvd_base {n : Net} (h : n.Valid) : n.size ∣ n.base :=
  Nat.dvd_of_mod_eq_zero h.2.2

theorem Net.Valid.base_add_size_le {n : Net} (h : n.Valid) : n.base + n.size ≤ 2 ^ 32 := by
  obtain ⟨q, hq⟩ := h.size_dvd_base
  obtain ⟨r, hr⟩ := Net.size_dvd_total h.1
  have hb := h.2.1
  have hszpos := n.size_pos
  have hqr : q < r := by
    by_contra hcon
    push_neg at hcon
    have : n.size * r ≤ n.size * q := Nat.mul_le_mul_left _ hcon
    omega
  calc n.base + n.size = n.size * (q + 1) := by rw [hq]; ring
    _ ≤ n.size * r := Nat.mul_le_mul_left _ (by omega)
    _ = 2 ^ 32 := hr.symm

theorem Net.Valid.mem_lt {n : Net} (h : n.Valid) {a : Nat} (ha : n.mem a) : a < 2 ^ 32 := by
  have h1 := h.base_add_size_le
  obtain ⟨_, h2⟩ := ha
  omega

theorem Net.mem_base (n : Net) : n.mem n.base :=
  ⟨le_refl _, by have := n.size_pos; omega⟩

theorem Net.supernet_of_pos {n : Net} (hp : 1 ≤ n.prefixlen) :
    n.supernet =
      ⟨n.base / 2 ^ (33 - n.prefixlen) * 2 ^ (33 - n.prefixlen), n.prefixlen - 1⟩ := by
  unfold Net.supernet
  rw [if_neg (by omega)]
  have h : 32 - (n.prefixlen - 1) = 33 - n.prefixlen := by omega
  rw [h]

theorem merge_nets_eq_some {n1 n2 m : Net} :
    merge_nets n1 n2 = some m ↔
      n1.supernet = n2.supernet ∧ n1.supernet.base = n1.base ∧
        n1.supernet.broadcast = n2.broadcast ∧ m = n1.supernet := by
  unfold merge_nets
  split_ifs with h
  · rw [Option.some_inj]
    constructor
    · intro he
      exact ⟨h.1, h.2.1, h.2.2, he.symm⟩
    · intro he
      exact he.2.2.2.symm
  · constructor
    · intro he
      simp at he
    · intro he
      exact absurd ⟨he.1, he.2.1, he.2.2.1⟩ h

/-- A network of prefix length 0 that satisfies the canonical-form invariant
is the whole address space starting at 0. -/
theorem Net.Valid.base_eq_zero {n : Net} (h : n.Valid) (hp : n.prefixlen = 0) :
    n.base = 0 := by
  have h1 : n.base < 4294967296 := by
    have := h.2.1
    norm_num at this
    exact this
  have h2 : n.base % 4294967296 = 0 := by
    have := h.2.2
    unfold Net.size at this
    rw [hp] at this
    norm_num at this
    exact this
  omega

/-- Semantics of a successful `merge_nets`: the merged network is valid,
keeps the first network's base address, and covers exactly the union of the
two input networks. -/
theorem merge_nets_sem {n1 n2 m : Net} (h1 : n1.Valid) (h2 : n2.Valid)
    (hm : merge_nets n1 n2 = some m) :
    m.Valid ∧ m.base = n1.base ∧ ∀ a, m.mem a ↔ n1.mem a ∨ n2.mem a := by
  rw [merge_nets_eq_some] at hm
  obtain ⟨hsup, hbase, hbro, hmeq⟩ := hm
  by_cases hp1 : n1.prefixlen = 0
  · -- the first network is the whole space; its supernet is itself
    have hb0 : n1.base = 0 := h1.base_eq_zero hp1
    have hms : m = n1 := by
      rw [hmeq]
      unfold Net.supernet
      rw [if_pos hp1]
    subst hms
    refine ⟨h1, rfl, fun a => ⟨fun h => Or.inl h, fun h => ?_⟩⟩
    rcases h with h | h
    · exact h
    · have hle := h2.base_add_size_le
      obtain ⟨ha1, ha2⟩ := h
      unfold Net.mem Net.size
      rw [hp1, hb0]
      simp only [Nat.sub_zero, Nat.zero_add, Nat.zero_le, true_and]
      omega
  · by_cases hp2 : n2.prefixlen = 0
    · -- the second network is the whole space and absorbs the first
      have hsup2 : n2.supernet = n2 := by
        unfold Net.supernet
        rw [if_pos hp2]
      have hb20 : n2.base = 0 := h2.base_eq_zero hp2
      have hmn2 : m = n2 := by rw [hmeq, hsup, hsup2]
      subst hmn2
      have hbn : m.base = n1.base := by
        rw [← hbase, hsup, hsup2]
      refine ⟨h2, hbn, fun a => ⟨fun h => Or.inr h, fun h => ?_⟩⟩
      rcases h with h | h
      · have hle := h1.base_add_size_le
        obtain ⟨ha1, ha2⟩ := h
        unfold Net.mem Net.size
        rw [hp2, hb20]
        simp only [Nat.sub_zero, Nat.zero_add, Nat.zero_le, true_and]
        omega
      · exact h
    · -- both prefix lengths positive: the genuine sibling-halves merge
      have hple1 : n1.prefixlen ≤ 32 := h1.1
      have hple2 : n2.prefixlen ≤ 32 := h2.1
      have hp1' : (1 : Nat) ≤ n1.prefixlen := by omega
      have hp2' : (1 : Nat) ≤ n2.prefixlen := by omega
      rw [Net.supernet_of_pos hp1'] at hsup hbase hbro hmeq
      rw [Net.supernet_of_pos hp2'] at hsup
      simp only [Net.mk.injEq] at hsup
      obtain ⟨hsb, hsp⟩ := hsup
      have hpp : n1.prefixlen = n2.prefixlen := by omega
      have hbase2 : n1.base / 2 ^ (33 - n1.prefixlen) * 2 ^ (33 - n1.prefixlen) = n1.base :=
        hbase
      have hbro2 : n1.base / 2 ^ (33 - n1.prefixlen) * 2 ^ (33 - n1.prefixlen)
          + 2 ^ (32 - (n1.prefixlen - 1)) - 1 = n2.base + 2 ^ (32 - n2.prefixlen) - 1 := hbro
      subst hmeq
      have h32 : 32 - (n1.prefixlen - 1) = 33 - n1.prefixlen := by omega
      have hcC : (2 : Nat) ^ (33 - n1.prefixlen) = 2 * 2 ^ (32 - n1.prefixlen) := by
        have h33 : 33 - n1.prefixlen = (32 - n1.prefixlen) + 1 := by omega
        rw [h33, pow_succ]
        ring
      have hcpos : (0 : Nat) < 2 ^ (32 - n1.prefixlen) := Nat.two_pow_pos _
      have hCpos : (0 : Nat) < 2 ^ (33 - n1.prefixlen) := Nat.two_pow_pos _
      rw [hbase2, h32, ← hpp] at hbro2
      have hb2 : n2.base = n1.base + 2 ^ (32 - n1.prefixlen) := by omega
      have hCdvd : 2 ^ (33 - n1.prefixlen) ∣ n1.base :=
        ⟨n1.base / 2 ^ (33 - n1.prefixlen), by rw [Nat.mul_comm]; exact hbase2.symm⟩
      refine ⟨?_, ?_, ?_⟩
      · refine ⟨?_, ?_, ?_⟩
        · show n1.prefixlen - 1 ≤ 32
          omega
        · show n1.base / 2 ^ (33 - n1.prefixlen) * 2 ^ (33 - n1.prefixlen) < 2 ^ 32
          rw [hbase2]
          exact h1.2.1
        · show n1.base / 2 ^ (33 - n1.prefixlen) * 2 ^ (33 - n1.prefixlen)
              % (2 ^ (32 - (n1.prefixlen - 1))) = 0
          rw [hbase2, h32]
          obtain ⟨k, hk⟩ := hCdvd
          rw [hk, Nat.mul_comm, Nat.mul_mod_left]
      · exact hbase2
      · intro a
        simp only [Net.mem, Net.size]
        rw [hbase2, h32, ← hpp]
        omega

/-! ## Coverage and merge-closedness through the merge loop -/

theorem covers_perm {l1 l2 : List Net} (h : l1.Perm l2) (a : Nat) :
    Covers l1 a ↔ Covers l2 a := by
  unfold Covers
  constructor
  · rintro ⟨n, hn, hna⟩
    exact ⟨n, h.mem_iff.mp hn, hna⟩
  · rintro ⟨n, hn, hna⟩
    exact ⟨n, h.mem_iff.mpr hn, hna⟩

theorem sortNets_perm (ns : List Net) : (sortNets ns).Perm ns :=
  List.perm_insertionSort _ _

/-- Splitting a list at two consecutive positions `i-1`, `i`. -/
theorem decomp_at (ns : List Net) (i : Nat) (h1 : 1 ≤ i) (h2 : i < ns.length) :
    ns = ns.take (i - 1)
      ++ ns.getD (i - 1) ⟨0, 0⟩ :: ns.getD i ⟨0, 0⟩ :: ns.drop (i + 1) := by
  have hi1 : i - 1 < ns.length := by omega
  conv_lhs => rw [← List.take_append_drop (i - 1) ns]
  congr 1
  rw [List.drop_eq_getElem_cons hi1]
  have he : i - 1 + 1 = i := by omega
  rw [he, List.drop_eq_getElem_cons h2]
  rw [List.getD_eq_getElem _ _ hi1, List.getD_eq_getElem _ _ h2]

theorem merge_step_covers {A D : List Net} {x y m : Net}
    (hvx : x.Valid) (hvy : y.Valid) (hm : merge_nets x y = some m) (a : Nat) :
    Covers (A ++ m :: D) a ↔ Covers (A ++ x :: y :: D) a := by
  obtain ⟨_, _, hmem⟩ := merge_nets_sem hvx hvy hm
  unfold Covers
  simp only [List.mem_append, List.mem_cons]
  constructor
  · rintro ⟨n, hn, hna⟩
    rcases hn with hn | hn | hn
    · exact ⟨n, Or.inl hn, hna⟩
    · subst hn
      rcases (hmem a).mp hna with h | h
      · exact ⟨x, Or.inr (Or.inl rfl), h⟩
      · exact ⟨y, Or.inr (Or.inr (Or.inl rfl)), h⟩
    · exact ⟨n, Or.inr (Or.inr (Or.inr hn)), hna⟩
  · rintro ⟨n, hn, hna⟩
    rcases hn with hn | hn | hn | hn
    · exact ⟨n, Or.inl hn, hna⟩
    · subst hn
      exact ⟨m, Or.inr (Or.inl rfl), (hmem a).mpr (Or.inl hna)⟩
    · subst hn
      exact ⟨m, Or.inr (Or.inl rfl), (hmem a).mpr (Or.inr hna)⟩
    · exact ⟨n, Or.inr (Or.inr hn), hna⟩

theorem merge_step_valid {A D : List Net} {x y m : Net}
    (hvx : x.Valid) (hvy : y.Valid) (hm : merge_nets x y = some m)
    (hv : ∀ n ∈ A ++ x :: y :: D, n.Valid) :
    ∀ n ∈ A ++ m :: D, n.Valid := by
  obtain ⟨hmv, _, _⟩ := merge_nets_sem hvx hvy hm
  intro n hn
  simp only [List.mem_append, List.mem_cons] at hn
  rcases hn with hn | hn | hn
  · exact hv n (by simp [hn])
  · subst hn
    exact hmv
  · exact hv n (by simp [hn])

theorem mergeLoopF_covers_valid :
    ∀ (fuel : Nat) (ns : List Net) (i : Nat), (∀ n ∈ ns, n.Valid) →
      (∀ n ∈ mergeLoopF fuel ns i, n.Valid) ∧
        ∀ a, Covers (mergeLoopF fuel ns i) a ↔ Covers ns a := by
  intro fuel
  induction fuel with
  | zero =>
      intro ns i hv
      simp only [mergeLoopF]
      exact ⟨hv, fun a => by trivial⟩
  | succ f ih =>
      intro ns i hv
      simp only [mergeLoopF]
      by_cases hlen : i < ns.length
      · rw [if_pos hlen]
        by_cases hi0 : i = 0
        · rw [if_pos hi0]
          exact ih ns (i + 1) hv
        · rw [if_neg hi0]
          rcases hmn : merge_nets (ns.getD (i - 1) ⟨0, 0⟩) (ns.getD i ⟨0, 0⟩) with _ | m
          · simp only [hmn]
            exact ih ns (i + 1) hv
          · simp only [hmn]
            have h1i : 1 ≤ i := by omega
            have hi1 : i - 1 < ns.length := by omega
            have hvx : (ns.getD (i - 1) ⟨0, 0⟩).Valid := by
              apply hv
              rw [List.getD_eq_getElem _ _ hi1]
              exact List.getElem_mem _
            have hvy : (ns.getD i ⟨0, 0⟩).Valid := by
              apply hv
              rw [List.getD_eq_getElem _ _ hlen]
              exact List.getElem_mem _
            have hv2 : ∀ n ∈ ns.take (i - 1) ++ m :: ns.drop (i + 1), n.Valid := by
              apply merge_step_valid hvx hvy hmn
              rw [← decomp_at ns i h1i hlen]
              exact hv
            obtain ⟨ihv, ihc⟩ := ih _ (if 1 < i then i - 1 else i) hv2
            refine ⟨ihv, fun a => ?_⟩
            rw [ihc a]
            conv_rhs => rw [decomp_at ns i h1i hlen]
            exact merge_step_covers hvx hvy hmn a
      · rw [if_neg hlen]
        exact ⟨hv, fun a => by trivial⟩

theorem merge_all_valid {ns : List Net} (hv : ∀ n ∈ ns, n.Valid) :
    ∀ n ∈ merge_all ns, n.Valid := by
  cases ns with
  | nil => simp [merge_all]
  | cons h t =>
      simp only [merge_all]
      exact (mergeLoopF_covers_valid _ _ _
        (fun n hn => hv n ((sortNets_perm _).subset hn))).1

theorem merge_all_covers {ns : List Net} (hv : ∀ n ∈ ns, n.Valid) (a : Nat) :
    Covers (merge_all ns) a ↔ Covers ns a := by
  cases ns with
  | nil => simp [merge_all]
  | cons h t =>
      simp only [merge_all]
      rw [(mergeLoopF_covers_valid _ _ _
        (fun n hn => hv n ((sortNets_perm _).subset hn))).2 a]
      exact covers_perm (sortNets_perm _) a

theorem mergeClosed_of_pairs {ns : List Net}
    (h : ∀ j, 1 ≤ j → j < ns.length →
      merge_nets (ns.getD (j - 1) ⟨0, 0⟩) (ns.getD j ⟨0, 0⟩) = none) :
    MergeClosed ns := by
  unfold MergeClosed
  rw [List.chain'_iff_get]
  intro k hk
  have hthis := h (k + 1) (by omega) (by omega)
  rw [List.getD_eq_getElem _ _ (show k + 1 - 1 < ns.length by omega),
    List.getD_eq_getElem _ _ (show k + 1 < ns.length by omega)] at hthis
  simpa using hthis

theorem getD_append_take (ns rest : List Net) (j k : Nat) (hj : j < k) (hk : k ≤ ns.length) :
    (ns.take k ++ rest).getD j ⟨0, 0⟩ = ns.getD j ⟨0, 0⟩ := by
  have hjlen : j < ns.length := by omega
  have htk : (ns.take k).length = k := by
    rw [List.length_take]
    omega
  have hj2 : j < (ns.take k ++ rest).length := by
    rw [List.length_append, htk]
    omega
  rw [List.getD_eq_getElem _ _ hj2, List.getD_eq_getElem _ _ hjlen]
  rw [List.getElem_append_left (by rw [htk]; exact hj)]
  exact List.getElem_take _

/-- Loop invariant for merge-closedness: every adjacent pair strictly left of
the cursor has already been found unmergeable.  With enough fuel the loop
ends with the cursor at or past the end, so the whole result is closed. -/
theorem mergeLoopF_closed :
    ∀ (fuel : Nat) (ns : List Net) (i : Nat), 1 ≤ i →
      2 * ns.length - i ≤ fuel →
      (∀ j, 1 ≤ j → j < i → j < ns.length →
        merge_nets (ns.getD (j - 1) ⟨0, 0⟩) (ns.getD j ⟨0, 0⟩) = none) →
      MergeClosed (mergeLoopF fuel ns i) := by
  intro fuel
  induction fuel with
  | zero =>
      intro ns i h1 hfuel hinv
      simp only [mergeLoopF]
      exact mergeClosed_of_pairs fun j hj1 hjlen => hinv j hj1 (by omega) hjlen
  | succ f ih =>
      intro ns i h1 hfuel hinv
      simp only [mergeLoopF]
      by_cases hlen : i < ns.length
      · rw [if_pos hlen, if_neg (by omega : ¬i = 0)]
        rcases hmn : merge_nets (ns.getD (i - 1) ⟨0, 0⟩) (ns.getD i ⟨0, 0⟩) with _ | m
        · simp only [hmn]
          apply ih ns (i + 1) (by omega) (by omega)
          intro j hj1 hji hjlen
          by_cases hji2 : j < i
          · exact hinv j hj1 hji2 hjlen
          · have hje : j = i := by omega
            subst hje
            exact hmn
        · simp only [hmn]
          have hlen2 : (ns.take (i - 1) ++ m :: ns.drop (i + 1)).length = ns.length - 1 := by
            simp only [List.length_append, List.length_take, List.length_cons,
              List.length_drop]
            omega
          apply ih _ _ ?_ ?_ ?_
          · show 1 ≤ if 1 < i then i - 1 else i
            by_cases h2 : 1 < i
            · rw [if_pos h2]
              omega
            · rw [if_neg h2]
              omega
          · rw [hlen2]
            by_cases h2 : 1 < i
            · rw [if_pos h2]
              omega
            · rw [if_neg h2]
              omega
          · intro j hj1 hji hjlen
            have hji2 : j < i - 1 := by
              by_cases h2 : 1 < i
              · rw [if_pos h2] at hji
                omega
              · rw [if_neg h2] at hji
                omega
            have e1 : (ns.take (i - 1) ++ m :: ns.drop (i + 1)).getD (j - 1) ⟨0, 0⟩
                = ns.getD (j - 1) ⟨0, 0⟩ :=
              getD_append_take ns _ (j - 1) (i - 1) (by omega) (by omega)
            have e2 : (ns.take (i - 1) ++ m :: ns.drop (i + 1)).getD j ⟨0, 0⟩
                = ns.getD j ⟨0, 0⟩ :=
              getD_append_take ns _ j (i - 1) (by omega) (by omega)
            rw [e1, e2]
            exact hinv j hj1 (by omega) (by omega)
      · rw [if_neg hlen]
        exact mergeClosed_of_pairs fun j hj1 hjlen => hinv j hj1 (by omega) hjlen

/-- The output of `merge_all` is always merge-closed: no two consecutive
entries of the result are the two halves of a common parent network. -/
theorem merge_all_closed (ns : List Net) : MergeClosed (merge_all ns) := by
  cases ns with
  | nil =>
      simp only [merge_all]
      exact List.chain'_nil
  | cons h t =>
      simp only [merge_all]
      apply mergeLoopF_closed _ _ _ (le_refl 1)
      · have := (sortNets_perm (h :: t)).length_eq
        omega
      · intro j hj1 hji hjlen
        omega

/-- On a merge-closed list the loop only advances the cursor and returns the
list unchanged, whatever the fuel. -/
theorem mergeLoopF_noop :
    ∀ (fuel : Nat) (ns : List Net) (i : Nat), MergeClosed ns → 1 ≤ i →
      mergeLoopF fuel ns i = ns := by
  intro fuel
  induction fuel with
  | zero =>
      intro ns i _ _
      simp only [mergeLoopF]
  | succ f ih =>
      intro ns i hcl h1
      simp only [mergeLoopF]
      by_cases hlen : i < ns.length
      · rw [if_pos hlen, if_neg (by omega : ¬i = 0)]
        have hmn : merge_nets (ns.getD (i - 1) ⟨0, 0⟩) (ns.getD i ⟨0, 0⟩) = none := by
          have hpair := (List.chain'_iff_get.mp hcl) (i - 1) (by omega)
          rw [List.getD_eq_getElem _ _ (show i - 1 < ns.length by omega),
            List.getD_eq_getElem _ _ hlen]
          have he : i - 1 + 1 = i := by omega
          simpa [he] using hpair
        simp only [hmn]
        exact ih ns (i + 1) hcl (by omega)
      · rw [if_neg hlen]

/-! ## Disjointness and sortedness through the merge loop -/

theorem Disj.symm {x y : Net} (h : Disj x y) : Disj y x := Or.symm h

theorem disj_not_mem {x y : Net} (h : Disj x y) (a : Nat) : ¬(x.mem a ∧ y.mem a) := by
  unfold Disj at h
  unfold Net.mem
  omega

theorem disj_of_not_shared {x y : Net} (h : ∀ a, ¬(x.mem a ∧ y.mem a)) : Disj x y := by
  by_contra hc
  unfold Disj at hc
  push_neg at hc
  refine h (max x.base y.base) ?_
  have hx := x.size_pos
  have hy := y.size_pos
  unfold Net.mem
  omega

theorem merge_step_sorted {A D : List Net} {x y m : Net}
    (hvx : x.Valid) (hvy : y.Valid) (hm : merge_nets x y = some m)
    (hs : List.Pairwise NetLE (A ++ x :: y :: D))
    (hd : List.Pairwise Disj (A ++ x :: y :: D)) :
    List.Pairwise NetLE (A ++ m :: D) ∧ List.Pairwise Disj (A ++ m :: D) := by
  obtain ⟨hmv, hmb, hmm⟩ := merge_nets_sem hvx hvy hm
  rw [List.pairwise_append] at hs hd
  obtain ⟨hsA, hsR, hsAR⟩ := hs
  obtain ⟨hdA, hdR, hdAR⟩ := hd
  rw [List.pairwise_cons] at hsR hdR
  obtain ⟨hsx, hsR2⟩ := hsR
  obtain ⟨hdx, hdR2⟩ := hdR
  rw [List.pairwise_cons] at hsR2 hdR2
  obtain ⟨hsy, hsD⟩ := hsR2
  obtain ⟨hdy, hdD⟩ := hdR2
  have hxy : x.base ≤ y.base := by
    have h1 := hsx y (by simp)
    unfold NetLE at h1
    omega
  have hbase_lt : ∀ {u w : Net}, NetLE u w → Disj u w → u.base < w.base := by
    intro u w h1 h2
    have hu := u.size_pos
    have hw := w.size_pos
    unfold NetLE at h1
    unfold Disj at h2
    omega
  have hdisjm : ∀ w, Disj x w → Disj y w → Disj m w := by
    intro w hx hy
    apply disj_of_not_shared
    rintro a ⟨ham, haw⟩
    rcases (hmm a).mp ham with h | h
    · exact disj_not_mem hx a ⟨h, haw⟩
    · exact disj_not_mem hy a ⟨h, haw⟩
  constructor
  · rw [List.pairwise_append, List.pairwise_cons]
    refine ⟨hsA, ⟨?_, hsD⟩, ?_⟩
    · intro d hd'
      have h1 := hsy d hd'
      have h2 := hdy d hd'
      have hyd : y.base < d.base := hbase_lt h1 h2
      unfold NetLE
      left
      rw [hmb]
      omega
    · intro a ha b hb
      rcases List.mem_cons.mp hb with hb | hb
      · subst hb
        have h1 := hsAR a ha x (by simp)
        have h2 := hdAR a ha x (by simp)
        have hax : a.base < x.base := hbase_lt h1 h2
        unfold NetLE
        left
        rw [hmb]
        omega
      · exact hsAR a ha b (by simp [hb])
  · rw [List.pairwise_append, List.pairwise_cons]
    refine ⟨hdA, ⟨?_, hdD⟩, ?_⟩
    · intro d hd'
      exact hdisjm d (hdx d (by simp [hd'])) (hdy d hd')
    · intro a ha b hb
      rcases List.mem_cons.mp hb with hb | hb
      · subst hb
        have h1 := (hdAR a ha x (by simp)).symm
        have h2 := (hdAR a ha y (by simp)).symm
        exact (hdisjm a h1 h2).symm
      · exact hdAR a ha b (by simp [hb])

theorem mergeLoopF_sorted :
    ∀ (fuel : Nat) (ns : List Net) (i : Nat),
      (∀ n ∈ ns, n.Valid) → List.Pairwise NetLE ns → List.Pairwise Disj ns →
      List.Pairwise NetLE (mergeLoopF fuel ns i) := by
  intro fuel
  induction fuel with
  | zero =>
      intro ns i _ hs _
      simpa only [mergeLoopF] using hs
  | succ f ih =>
      intro ns i hv hs hd
      simp only [mergeLoopF]
      by_cases hlen : i < ns.length
      · rw [if_pos hlen]
        by_cases hi0 : i = 0
        · rw [if_pos hi0]
          exact ih ns (i + 1) hv hs hd
        · rw [if_neg hi0]
          rcases hmn : merge_nets (ns.getD (i - 1) ⟨0, 0⟩) (ns.getD i ⟨0, 0⟩) with _ | m
          · simp only [hmn]
            exact ih ns (i + 1) hv hs hd
          · simp only [hmn]
            have h1i : 1 ≤ i := by omega
            have hi1 : i - 1 < ns.length := by omega
            have hvx : (ns.getD (i - 1) ⟨0, 0⟩).Valid := by
              apply hv
              rw [List.getD_eq_getElem _ _ hi1]
              exact List.getElem_mem _
            have hvy : (ns.getD i ⟨0, 0⟩).Valid := by
              apply hv
              rw [List.getD_eq_getElem _ _ hlen]
              exact List.getElem_mem _
            have hdec := decomp_at ns i h1i hlen
            rw [hdec] at hv hs hd
            obtain ⟨hs2, hd2⟩ := merge_step_sorted hvx hvy hmn hs hd
            exact ih _ _ (merge_step_valid hvx hvy hmn hv) hs2 hd2
      · rw [if_neg hlen]
        exact hs

theorem merge_all_sorted {ns : List Net} (hv : ∀ n ∈ ns, n.Valid)
    (hd : List.Pairwise Disj ns) : List.Pairwise NetLE (merge_all ns) := by
  cases ns with
  | nil => simp [merge_all]
  | cons h t =>
      simp only [merge_all]
      apply mergeLoopF_sorted
      · exact fun n hn => hv n ((sortNets_perm _).subset hn)
      · exact List.sorted_insertionSort NetLE (h :: t)
      · exact (List.Perm.pairwise_iff (fun hxy => hxy.symm) (sortNets_perm _)).mpr hd

theorem merge_all_idem_aux {ns : List Net} (hv : ∀ n ∈ ns, n.Valid)
    (hd : List.Pairwise Disj ns) : merge_all (merge_all ns) = merge_all ns := by
  cases hresult : merge_all ns with
  | nil => simp [merge_all]
  | cons h t =>
      have hsorted : List.Pairwise NetLE (merge_all ns) := merge_all_sorted hv hd
      have hclosed := merge_all_closed ns
      rw [hresult] at hsorted hclosed
      simp only [merge_all]
      rw [show sortNets (h :: t) = h :: t from List.Sorted.insertionSort_eq hsorted]
      exact mergeLoopF_noop _ _ _ hclosed (le_refl 1)

/-! ## Claims C2, C3, C4 -/

/-- C2 (counterexample): `merge_all` does **not** deduplicate.  The input
containing `1.0.0.0/24` twice is returned with both copies (the two equal
halves of a parent are never recognized as mergeable, since one network
cannot be both the low and the high half), and the two output entries
overlap, contradicting the claimed minimal covering set. -/
theorem merge_all_dedup_cex :
    merge_all [⟨16777216, 24⟩, ⟨16777216, 24⟩] = [⟨16777216, 24⟩, ⟨16777216, 24⟩] ∧
      ¬ Disj (⟨16777216, 24⟩ : Net) ⟨16777216, 24⟩ := by
  decide

/-- C2 (amended): the Range Normalizer sorts the input and merges adjacent
sibling halves; for every input the result is merge-closed (no two
consecutive entries can be merged further), but exact duplicates are *not*
removed and the result need not be a minimal covering set. -/
theorem range_normalizer_merge_closed (ns : List Net) : MergeClosed (merge_all ns) :=
  merge_all_closed ns

/-- C3 (counterexample): on the duplicated input
`[1.0.0.0/24, 1.0.0.0/24, 1.0.1.0/24]` the merge loop produces
`[1.0.0.0/24, 1.0.0.0/23]`, which is **not** sorted by
(base address, prefix length). -/
theorem merge_all_sorted_cex :
    merge_all [⟨16777216, 24⟩, ⟨16777216, 24⟩, ⟨16777472, 24⟩]
        = [⟨16777216, 24⟩, ⟨16777216, 23⟩] ∧
      ¬ List.Pairwise NetLE
        (merge_all [⟨16777216, 24⟩, ⟨16777216, 24⟩, ⟨16777472, 24⟩]) := by
  decide

/-- C3 (amended): for every list of valid networks, `merge_all` preserves the
covered address set exactly (no address gained or lost) and its result is
merge-closed; the result is *not* sorted in general. -/
theorem merge_all_coverage_preserving {ns : List Net} (hv : ∀ n ∈ ns, n.Valid) :
    (∀ a, Covers (merge_all ns) a ↔ Covers ns a) ∧ MergeClosed (merge_all ns) :=
  ⟨fun a => merge_all_covers hv a, merge_all_closed ns⟩

/-- Witness for C3 at the concrete input `[1.0.0.0/24]` and address
`1.0.0.84`. -/
theorem merge_all_coverage_preserving_witness :
    (Covers (merge_all [⟨16777216, 24⟩]) 16777300 ↔ Covers [⟨16777216, 24⟩] 16777300) ∧
      MergeClosed (merge_all [⟨16777216, 24⟩]) :=
  ⟨(merge_all_coverage_preserving (by decide)).1 16777300,
    (merge_all_coverage_preserving (by decide)).2⟩

/-- C4 (counterexample): `merge_all` is **not** idempotent on the duplicated
input `[1.0.0.0/24, 1.0.0.0/24, 1.0.1.0/24]`: the first pass yields the
unsorted list `[1.0.0.0/24, 1.0.0.0/23]`, and the second pass re-sorts it,
producing a different list. -/
theorem merge_all_idem_cex :
    merge_all (merge_all [⟨16777216, 24⟩, ⟨16777216, 24⟩, ⟨16777472, 24⟩])
      ≠ merge_all [⟨16777216, 24⟩, ⟨16777216, 24⟩, ⟨16777472, 24⟩] := by
  decide

/-- C4 (amended): `merge_all` is idempotent on every input of valid,
pairwise-disjoint networks (the situation the spec assumes: the feed
guarantees non-overlapping ranges).  Overlapping or duplicated inputs can
break idempotence. -/
theorem merge_all_idem {ns : List Net} (hv : ∀ n ∈ ns, n.Valid)
    (hd : List.Pairwise Disj ns) : merge_all (merge_all ns) = merge_all ns :=
  merge_all_idem_aux hv hd

/-- Witness for C4 at the concrete disjoint input
`[1.0.0.0/24, 2.0.0.0/23]`. -/
theorem merge_all_idem_witness :
    merge_all (merge_all [⟨16777216, 24⟩, ⟨33554432, 23⟩])
      = merge_all [⟨16777216, 24⟩, ⟨33554432, 23⟩] :=
  merge_all_idem (by decide) (by decide)

/-! ## Fragmentation: the rounded-up target prefix length -/

theorem fregment_target_eq_nat {p s : Nat} (hs : 1 ≤ s) (hp : 1 ≤ p) :
    fregment_target p s = (((p - 1) / s * s + s : Nat) : Int) := by
  unfold fregment_target
  have hb : (0 : Int) ≤ (s : Int) := by positivity
  rw [Int.fdiv_eq_ediv _ hb]
  have h1 : ((p : Int) - 1) = ((p - 1 : Nat) : Int) := by
    push_cast
    omega
  rw [h1, ← Int.ofNat_ediv]
  push_cast
  ring

theorem fregment_target_zero {s : Nat} (hs : 1 ≤ s) : fregment_target 0 s = 0 := by
  unfold fregment_target
  have hb : (0 : Int) ≤ (s : Int) := by positivity
  have hc : ((s : Int)) ≠ 0 := by
    have : (0 : Int) < (s : Int) := by exact_mod_cast hs
    omega
  rw [Int.fdiv_eq_ediv _ hb]
  have h1 : ((0 : Nat) : Int) - 1 = ((s : Int) - 1) + (-1) * s := by ring
  rw [h1, Int.add_mul_ediv_right _ _ hc]
  have h2 : ((s : Int) - 1) / s = 0 := by
    apply Int.ediv_eq_zero_of_lt
    · have : (0 : Int) < (s : Int) := by exact_mod_cast hs
      omega
    · omega
  rw [h2]
  ring

theorem natTarget_ge {p s : Nat} (hs : 1 ≤ s) : p ≤ (p - 1) / s * s + s := by
  have h := Nat.div_add_mod (p - 1) s
  rw [Nat.mul_comm] at h
  have h2 := Nat.mod_lt (p - 1) (show 0 < s by omega)
  omega

theorem natTarget_dvd (p s : Nat) : s ∣ (p - 1) / s * s + s :=
  ⟨(p - 1) / s + 1, by ring⟩

theorem natTarget_lt {p s : Nat} (hs : 1 ≤ s) (hp : 1 ≤ p) :
    (p - 1) / s * s + s < p + s := by
  have h := Nat.div_mul_le_self (p - 1) s
  omega

theorem natTarget_le_of_dvd {p s M : Nat} (hs : 1 ≤ s) (hp : 1 ≤ p)
    (hM : s ∣ M) (hpM : p ≤ M) : (p - 1) / s * s + s ≤ M := by
  obtain ⟨j, hj⟩ := natTarget_dvd p s
  obtain ⟨k, hk⟩ := hM
  have h1 : (p - 1) / s * s + s < p + s := natTarget_lt hs hp
  have h2 : s * j < s * (k + 1) := by
    have : s * k + s = s * (k + 1) := by ring
    omega
  have h3 : j < k + 1 := Nat.lt_of_mul_lt_mul_left h2
  have h4 : s * j ≤ s * k := Nat.mul_le_mul_left s (by omega)
  omega

theorem fregment_net_eq {n : Net} {s : Nat} (hs : 1 ≤ s) (hp : 1 ≤ n.prefixlen)
    (ht32 : (n.prefixlen - 1) / s * s + s ≤ 32) :
    fregment_net n s = subnetsList n ((n.prefixlen - 1) / s * s + s) := by
  unfold fregment_net
  rw [fregment_target_eq_nat hs hp]
  rw [if_pos ⟨by exact_mod_cast natTarget_ge hs, by exact_mod_cast ht32⟩]
  congr 1

theorem fregment_net_fallback {n : Net} {s : Nat}
    (h : (32 : Int) < fregment_target n.prefixlen s) :
    fregment_net n s = [n] := by
  unfold fregment_net
  rw [if_neg]
  rintro ⟨_, hc⟩
  omega

/-! ## Fragmentation: losslessness of the split -/

theorem size_split {p t : Nat} (hpt : p ≤ t) (ht : t ≤ 32) :
    (2 : Nat) ^ (32 - p) = 2 ^ (t - p) * 2 ^ (32 - t) := by
  rw [← pow_add]
  congr 1
  omega

/-- The fragment of `n` that contains `a` is the `t`-prefix block of `a`
itself. -/
theorem subnetsList_mem_frag {n : Net} {t : Nat} (hv : n.Valid)
    (hpt : n.prefixlen ≤ t) (ht : t ≤ 32) {a : Nat} (ha : n.mem a) :
    ∃ f ∈ subnetsList n t, f.prefixlen = t
      ∧ f.base = a / 2 ^ (32 - t) * 2 ^ (32 - t) ∧ f.Valid ∧ f.mem a := by
  obtain ⟨hab1, hab2⟩ := ha
  have hcpos : (0 : Nat) < 2 ^ (32 - t) := Nat.two_pow_pos _
  have hsz : (2 : Nat) ^ (32 - n.prefixlen) = 2 ^ (t - n.prefixlen) * 2 ^ (32 - t) :=
    size_split hpt ht
  have hdvd : 2 ^ (32 - t) ∣ n.base := by
    refine dvd_trans ?_ hv.size_dvd_base
    exact pow_dvd_pow 2 (by omega)
  have hsize : n.size = 2 ^ (32 - n.prefixlen) := rfl
  rw [hsize, hsz] at hab2
  refine ⟨⟨n.base + (a - n.base) / 2 ^ (32 - t) * 2 ^ (32 - t), t⟩, ?_, rfl, ?_, ?_, ?_⟩
  · unfold subnetsList
    refine List.mem_map.mpr ⟨(a - n.base) / 2 ^ (32 - t), ?_, rfl⟩
    rw [List.mem_range]
    rw [Nat.div_lt_iff_lt_mul hcpos]
    omega
  · -- base of the chosen fragment = the t-prefix block of a
    have h1 : a / 2 ^ (32 - t) = n.base / 2 ^ (32 - t) + (a - n.base) / 2 ^ (32 - t) := by
      have h2 : a = n.base + (a - n.base) := by omega
      conv_lhs => rw [h2]
      exact Nat.add_div_of_dvd_right hdvd
    rw [h1, Nat.add_mul, Nat.div_mul_cancel hdvd]
  · -- validity of the fragment
    refine ⟨ht, ?_, ?_⟩
    · show n.base + (a - n.base) / 2 ^ (32 - t) * 2 ^ (32 - t) < 2 ^ 32
      have hfb : (a - n.base) / 2 ^ (32 - t) * 2 ^ (32 - t) ≤ a - n.base :=
        Nat.div_mul_le_self _ _
      have haW : a < 2 ^ 32 := hv.mem_lt ⟨hab1, by rw [hsize, hsz]; omega⟩
      omega
    · show (n.base + (a - n.base) / 2 ^ (32 - t) * 2 ^ (32 - t)) % 2 ^ (32 - t) = 0
      rw [Nat.add_mul_mod_self_right]
      obtain ⟨u, hu⟩ := hdvd
      rw [hu]
      exact Nat.mul_mod_right _ _
  · -- the fragment contains a
    constructor
    · show n.base + (a - n.base) / 2 ^ (32 - t) * 2 ^ (32 - t) ≤ a
      have := Nat.div_mul_le_self (a - n.base) (2 ^ (32 - t))
      omega
    · show a < n.base + (a - n.base) / 2 ^ (32 - t) * 2 ^ (32 - t) + 2 ^ (32 - (⟨_, t⟩ : Net).prefixlen)
      have hmod := Nat.div_add_mod (a - n.base) (2 ^ (32 - t))
      rw [Nat.mul_comm] at hmod
      have hmlt := Nat.mod_lt (a - n.base) hcpos
      simp only
      omega

theorem subnetsList_covers {n : Net} {t : Nat} (hv : n.Valid)
    (hpt : n.prefixlen ≤ t) (ht : t ≤ 32) (a : Nat) :
    (∃ f ∈ subnetsList n t, f.mem a) ↔ n.mem a := by
  constructor
  · rintro ⟨f, hf, hfa⟩
    unfold subnetsList at hf
    obtain ⟨k, hk, hfk⟩ := List.mem_map.mp hf
    rw [List.mem_range] at hk
    subst hfk
    have hcpos : (0 : Nat) < 2 ^ (32 - t) := Nat.two_pow_pos _
    have hsz : (2 : Nat) ^ (32 - n.prefixlen) = 2 ^ (t - n.prefixlen) * 2 ^ (32 - t) :=
      size_split hpt ht
    have h1 : n.base + k * 2 ^ (32 - t) ≤ a := hfa.1
    have h2 : a < n.base + k * 2 ^ (32 - t) + 2 ^ (32 - t) := hfa.2
    have hk1 : (k + 1) * 2 ^ (32 - t) ≤ 2 ^ (t - n.prefixlen) * 2 ^ (32 - t) :=
      Nat.mul_le_mul_right _ (by omega)
    have hexp : (k + 1) * 2 ^ (32 - t) = k * 2 ^ (32 - t) + 2 ^ (32 - t) := by ring
    constructor
    · omega
    · show a < n.base + n.size
      have hsize : n.size = 2 ^ (32 - n.prefixlen) := rfl
      rw [hsize, hsz]
      omega
  · intro ha
    obtain ⟨f, hf, _, _, _, hfa⟩ := subnetsList_mem_frag hv hpt ht ha
    exact ⟨f, hf, hfa⟩

/-- Losslessness of `fregment_net` for any step ≥ 1 and valid network. -/
theorem fregment_net_covers {n : Net} {s : Nat} (hs : 1 ≤ s) (hv : n.Valid) (a : Nat) :
    (∃ f ∈ fregment_net n s, f.mem a) ↔ n.mem a := by
  unfold fregment_net
  split_ifs with hc
  · obtain ⟨hc1, hc2⟩ := hc
    exact subnetsList_covers hv (by omega) (by omega) a
  · simp

theorem fregment_nets_eq_flatten (ns : List Net) (s : Nat) :
    fregment_nets ns s = (ns.map (fregment_net · s)).flatten := by
  have H : ∀ (l : List Net) (acc : List Net),
      l.foldl (fun acc n => acc ++ fregment_net n s) acc
        = acc ++ (l.map (fregment_net · s)).flatten := by
    intro l
    induction l with
    | nil =>
        intro acc
        simp
    | cons h t ih =>
        intro acc
        simp only [List.foldl_cons, List.map_cons, List.flatten_cons, ih,
          List.append_assoc]
  unfold fregment_nets
  simpa using H ns []

theorem mem_fregment_nets {f : Net} {ns : List Net} {s : Nat} :
    f ∈ fregment_nets ns s ↔ ∃ n ∈ ns, f ∈ fregment_net n s := by
  rw [fregment_nets_eq_flatten]
  simp [List.mem_flatten]

theorem fregment_nets_covers {ns : List Net} {s : Nat} (hs : 1 ≤ s)
    (hv : ∀ n ∈ ns, n.Valid) (a : Nat) :
    Covers (fregment_nets ns s) a ↔ Covers ns a := by
  unfold Covers
  constructor
  · rintro ⟨f, hf, hfa⟩
    obtain ⟨n, hn, hfn⟩ := mem_fregment_nets.mp hf
    exact ⟨n, hn, (fregment_net_covers hs (hv n hn) a).mp ⟨f, hfn, hfa⟩⟩
  · rintro ⟨n, hn, hna⟩
    obtain ⟨f, hf, hfa⟩ := (fregment_net_covers hs (hv n hn) a).mpr hna
    exact ⟨f, mem_fregment_nets.mpr ⟨n, hn, hf⟩, hfa⟩

theorem subnetsList_length (n : Net) (t : Nat) :
    (subnetsList n t).length = 2 ^ (t - n.prefixlen) := by
  simp [subnetsList]

theorem subnetsList_prefixlen {n : Net} {t : Nat} :
    ∀ f ∈ subnetsList n t, f.prefixlen = t := by
  intro f hf
  obtain ⟨k, _, hfk⟩ := List.mem_map.mp hf
  rw [← hfk]

theorem subnetsList_chain (n : Net) (t : Nat) :
    (subnetsList n t).Chain' fun f g => f.base < g.base := by
  apply List.Pairwise.chain'
  unfold subnetsList
  apply List.Pairwise.map (R := (· < ·))
  · intro a b hab
    show n.base + a * 2 ^ (32 - t) < n.base + b * 2 ^ (32 - t)
    have hpos : (0 : Nat) < 2 ^ (32 - t) := Nat.two_pow_pos _
    exact Nat.add_lt_add_left ((Nat.mul_lt_mul_right hpos).mpr hab) _
  · exact List.pairwise_lt_range _

theorem subnetsList_getD {n : Net} {t k : Nat} (hk : k < 2 ^ (t - n.prefixlen)) :
    (subnetsList n t).getD k ⟨0, 0⟩ = ⟨n.base + k * 2 ^ (32 - t), t⟩ := by
  unfold subnetsList
  rw [List.getD_eq_getElem _ _ (by simpa using hk), List.getElem_map, List.getElem_range]

theorem fregment_net_eq_subnets {n : Net} {s : Nat} (hs : 1 ≤ s)
    (h32 : fregment_target n.prefixlen s ≤ 32) :
    fregment_net n s = subnetsList n (fregment_target n.prefixlen s).toNat := by
  have hple : (n.prefixlen : Int) ≤ fregment_target n.prefixlen s := by
    by_cases hp : n.prefixlen = 0
    · rw [hp, fregment_target_zero hs]
      norm_num
    · rw [fregment_target_eq_nat hs (by omega)]
      exact_mod_cast natTarget_ge hs
  unfold fregment_net
  rw [if_pos ⟨hple, h32⟩]

/-! ## Claims C5, C6, C7 -/

/-- C5: the Fragmenter's target prefix length is
`(prefixlen - 1) // step * step + step` under floor division; prefix lengths
that are exact multiples of the step are fixed points, non-multiples round up
to the next multiple; and whenever the target is at most 32, `fregment_net`
returns exactly `2 ^ (target - prefixlen)` subnets of prefix length `target`
in ascending address order (the k-th fragment starting at
`base + k * 2 ^ (32 - target)`). -/
theorem fragmenter_formula (n : Net) (s : Nat) (hs : 1 ≤ s) :
    (1 ≤ n.prefixlen →
      fregment_target n.prefixlen s = (((n.prefixlen - 1) / s * s + s : Nat) : Int)) ∧
    (s ∣ n.prefixlen → fregment_target n.prefixlen s = (n.prefixlen : Int)) ∧
    (¬ s ∣ n.prefixlen →
      (n.prefixlen : Int) < fregment_target n.prefixlen s ∧
        (s : Int) ∣ fregment_target n.prefixlen s ∧
        fregment_target n.prefixlen s < n.prefixlen + s) ∧
    (fregment_target n.prefixlen s ≤ 32 →
      (fregment_net n s).length = 2 ^ ((fregment_target n.prefixlen s).toNat - n.prefixlen) ∧
      (∀ f ∈ fregment_net n s, f.prefixlen = (fregment_target n.prefixlen s).toNat) ∧
      (fregment_net n s).Chain' (fun f g => f.base < g.base) ∧
      ∀ k, k < 2 ^ ((fregment_target n.prefixlen s).toNat - n.prefixlen) →
        (fregment_net n s).getD k ⟨0, 0⟩
          = ⟨n.base + k * 2 ^ (32 - (fregment_target n.prefixlen s).toNat),
             (fregment_target n.prefixlen s).toNat⟩) := by
  refine ⟨fun hp => fregment_target_eq_nat hs hp, ?_, ?_, ?_⟩
  · intro hdvd
    by_cases hp : n.prefixlen = 0
    · rw [hp, fregment_target_zero hs]
      norm_num
    · rw [fregment_target_eq_nat hs (by omega)]
      obtain ⟨q, hq⟩ := hdvd
      have hq1 : 1 ≤ q := by
        rcases Nat.eq_zero_or_pos q with h0 | h0
        · rw [h0, Nat.mul_zero] at hq
          omega
        · omega
      have hb : (q - 1) * s + s = q * s := by
        have hqe : q - 1 + 1 = q := by omega
        calc (q - 1) * s + s = (q - 1 + 1) * s := by ring
          _ = q * s := by rw [hqe]
      have hdiv : (n.prefixlen - 1) / s = q - 1 := by
        apply Nat.div_eq_of_lt_le
        · have hsq : s * q = q * s := Nat.mul_comm _ _
          omega
        · have h1 : (q - 1 + 1) * s = q * s := by rw [show q - 1 + 1 = q by omega]
          have hsq : s * q = q * s := Nat.mul_comm _ _
          omega
      rw [hdiv]
      have hsq : s * q = q * s := Nat.mul_comm _ _
      push_cast
      omega
  · intro hndvd
    have hp : 1 ≤ n.prefixlen := by
      by_contra hc
      exact hndvd (by simp [show n.prefixlen = 0 by omega])
    rw [fregment_target_eq_nat hs hp]
    refine ⟨?_, ?_, ?_⟩
    · have h1 := natTarget_ge (p := n.prefixlen) hs
      have h2 : n.prefixlen ≠ (n.prefixlen - 1) / s * s + s := by
        intro hc
        exact hndvd (hc ▸ natTarget_dvd n.prefixlen s)
      exact_mod_cast show n.prefixlen < (n.prefixlen - 1) / s * s + s by omega
    · exact_mod_cast Int.natCast_dvd_natCast.mpr (natTarget_dvd n.prefixlen s)
    · exact_mod_cast natTarget_lt hs hp
  · intro h32
    rw [fregment_net_eq_subnets hs h32]
    refine ⟨subnetsList_length _ _, subnetsList_prefixlen, subnetsList_chain _ _,
      fun k hk => subnetsList_getD hk⟩

/-- Witness for C5: with step 2 an exact-multiple prefix length 20 is a fixed
point of the target formula, and `192.168.0.0/19` splits into
`2 ^ (20 - 19) = 2` fragments. -/
theorem fragmenter_formula_witness :
    fregment_target 20 2 = (20 : Int) ∧
      (fregment_net ⟨3232235520, 19⟩ 2).length
        = 2 ^ ((fregment_target 19 2).toNat - 19) :=
  ⟨(fragmenter_formula ⟨3232235520, 20⟩ 2 (by decide)).2.1 (by decide),
   ((fragmenter_formula ⟨3232235520, 19⟩ 2 (by decide)).2.2.2 (by decide)).1⟩

/-- C6: when the computed target prefix length exceeds 32, `fregment_net`
returns the singleton list holding the network unchanged (Python catches the
`ValueError` from `subnets` and falls back; no error escapes). -/
theorem fragmentation_impossible (n : Net) (s : Nat) (hs : 1 ≤ s)
    (h : (32 : Int) < fregment_target n.prefixlen s) :
    fregment_net n s = [n] :=
  fregment_net_fallback h

/-- Witness for C6: a /32 network with step 3 has target 33 > 32 and is
returned unchanged. -/
theorem fragmentation_impossible_witness :
    fregment_net ⟨0, 32⟩ 3 = [⟨0, 32⟩] :=
  fragmentation_impossible ⟨0, 32⟩ 3 (by decide) (by decide)

/-- C7: fragmentation is lossless.  For every valid network and step ≥ 1 the
fragments of `fregment_net` cover exactly the addresses of the network, and
`fregment_nets` preserves the covered address set of a whole list. -/
theorem fragmentation_lossless {s : Nat} (hs : 1 ≤ s) :
    (∀ n : Net, n.Valid → ∀ a, ((∃ f ∈ fregment_net n s, f.mem a) ↔ n.mem a)) ∧
      ∀ ns : List Net, (∀ n ∈ ns, n.Valid) → ∀ a,
        (Covers (fregment_nets ns s) a ↔ Covers ns a) :=
  ⟨fun n hv a => fregment_net_covers hs hv a,
   fun ns hv a => fregment_nets_covers hs hv a⟩

/-- Witness for C7 at `192.168.0.0/19`, step 2, address `192.168.1.224`. -/
theorem fragmentation_lossless_witness :
    ((∃ f ∈ fregment_net ⟨3232235520, 19⟩ 2, f.mem 3232236000)
        ↔ Net.mem ⟨3232235520, 19⟩ 3232236000) ∧
      (Covers (fregment_nets [⟨3232235520, 19⟩] 2) 3232236000
        ↔ Covers [⟨3232235520, 19⟩] 3232236000) :=
  ⟨(fragmentation_lossless (by decide)).1 ⟨3232235520, 19⟩ (by decide) 3232236000,
   (fragmentation_lossless (by decide)).2 [⟨3232235520, 19⟩] (by decide) 3232236000⟩

/-! ## Hash partitioner -/

theorem hash_nets_length (F : List Net) (m : Nat) : (hash_nets F m).length = m := by
  unfold hash_nets
  have H : ∀ (l : List Net) (init : List (List Net)),
      (l.foldl
        (fun h n =>
          h.set (hash_address n.base m) (h.getD (hash_address n.base m) [] ++ [n]))
        init).length = init.length := by
    intro l
    induction l with
    | nil => intro init; rfl
    | cons n l ih =>
        intro init
        rw [List.foldl_cons, ih, List.length_set]
  rw [H]
  exact List.length_replicate _ _

theorem hash_nets_getD {F : List Net} {m i : Nat} (him : i < m) :
    (hash_nets F m).getD i [] = F.filter fun n => n.base % m == i := by
  have H : ∀ (l : List Net) (init : List (List Net)), init.length = m →
      (l.foldl
        (fun h n =>
          h.set (hash_address n.base m) (h.getD (hash_address n.base m) [] ++ [n]))
        init).getD i []
        = init.getD i [] ++ l.filter fun n => n.base % m == i := by
    intro l
    induction l with
    | nil =>
        intro init _
        simp
    | cons n l ih =>
        intro init hlen
        rw [List.foldl_cons]
        have hk : hash_address n.base m < m := Nat.mod_lt _ (by omega)
        have hlen2 : (init.set (hash_address n.base m)
            (init.getD (hash_address n.base m) [] ++ [n])).length = m := by
          rw [List.length_set]
          exact hlen
        rw [ih _ hlen2]
        have hgd : (init.set (hash_address n.base m)
            (init.getD (hash_address n.base m) [] ++ [n])).getD i []
            = if hash_address n.base m = i then init.getD i [] ++ [n]
              else init.getD i [] := by
          rw [List.getD_eq_getElem _ _ (by rw [hlen2]; exact him), List.getElem_set]
          split_ifs with he
          · rw [he]
          · exact (List.getD_eq_getElem _ _ (by rw [hlen]; exact him)).symm
        rw [hgd, List.filter_cons]
        by_cases he : hash_address n.base m = i
        · have hb : (n.base % m == i) = true := by
            unfold hash_address at he
            simp [he]
          rw [if_pos he, hb]
          simp
        · have hb : ¬ (n.base % m == i) = true := by
            unfold hash_address at he
            simpa using he
          rw [if_neg he, if_neg hb]
  unfold hash_nets
  rw [H F (List.replicate m []) (List.length_replicate _ _)]
  rw [List.getD_eq_getElem _ _ (by rw [List.length_replicate]; exact him)]
  rw [List.getElem_replicate]
  rfl

theorem sum_lengths_set (h : List (List Net)) (i : Nat) (n : Net) (hi : i < h.length) :
    ((h.set i (h.getD i [] ++ [n])).map List.length).sum
      = ((h.map List.length).sum) + 1 := by
  induction h generalizing i with
  | nil => simp at hi
  | cons x h ih =>
      cases i with
      | zero =>
          simp only [List.set_cons_zero, List.getD_cons_zero, List.map_cons, List.sum_cons,
            List.length_append, List.length_cons, List.length_nil]
          omega
      | succ i =>
          have hi2 : i < h.length := by simpa using hi
          simp only [List.set_cons_succ, List.getD_cons_succ, List.map_cons, List.sum_cons]
          rw [ih i hi2]
          omega

theorem hash_nets_sum {F : List Net} {m : Nat} (hm : 1 ≤ m) :
    ((hash_nets F m).map List.length).sum = F.length := by
  have H : ∀ (l : List Net) (init : List (List Net)), init.length = m →
      ((l.foldl
        (fun h n =>
          h.set (hash_address n.base m) (h.getD (hash_address n.base m) [] ++ [n]))
        init).map List.length).sum
        = ((init.map List.length).sum) + l.length := by
    intro l
    induction l with
    | nil =>
        intro init _
        simp
    | cons n l ih =>
        intro init hlen
        rw [List.foldl_cons]
        have hk : hash_address n.base m < init.length := by
          rw [hlen]
          exact Nat.mod_lt _ (by omega)
        have hlen2 : (init.set (hash_address n.base m)
            (init.getD (hash_address n.base m) [] ++ [n])).length = m := by
          rw [List.length_set]
          exact hlen
        rw [ih _ hlen2, sum_lengths_set _ _ _ hk]
        simp only [List.length_cons]
        omega
  unfold hash_nets
  rw [H F (List.replicate m []) (List.length_replicate _ _)]
  simp

/-! ## Claims C8, C9 -/

/-- C8: `hash_nets` returns exactly `b` buckets; bucket `i` holds exactly the
networks whose base address is ≡ i (mod b), in input order (each network of
`F` therefore appears exactly once, in its own bucket); and the bucket sizes
sum to the length of `F`. -/
theorem partitioner_correct (F : List Net) (b : Nat) (hb : 1 ≤ b) :
    (hash_nets F b).length = b ∧
      (∀ i, i < b → (hash_nets F b).getD i [] = F.filter fun n => n.base % b == i) ∧
      ((hash_nets F b).map List.length).sum = F.length :=
  ⟨hash_nets_length F b, fun _ him => hash_nets_getD him, hash_nets_sum hb⟩

/-- Witness for C8 with two networks and 7 buckets. -/
theorem partitioner_correct_witness :
    (hash_nets [⟨16777216, 24⟩, ⟨33554432, 23⟩] 7).length = 7 ∧
      (hash_nets [⟨16777216, 24⟩, ⟨33554432, 23⟩] 7).getD 2 []
        = List.filter (fun n => n.base % 7 == 2) [⟨16777216, 24⟩, ⟨33554432, 23⟩] ∧
      ((hash_nets [⟨16777216, 24⟩, ⟨33554432, 23⟩] 7).map List.length).sum = 2 :=
  ⟨(partitioner_correct [⟨16777216, 24⟩, ⟨33554432, 23⟩] 7 (by decide)).1,
   (partitioner_correct [⟨16777216, 24⟩, ⟨33554432, 23⟩] 7 (by decide)).2.1 2 (by decide),
   (partitioner_correct [⟨16777216, 24⟩, ⟨33554432, 23⟩] 7 (by decide)).2.2⟩

/-- C9: empty input propagates as empty results through every stage:
`calculate_prefix_range [] = (32, 0)` (the sentinel pair), `merge_all`,
`fregment_nets` and the bucket contents of `hash_nets` are all empty, and the
matcher built from the empty input answers `false` for every address (its
loop bound `32 > 0` makes the loop body unreachable). -/
theorem empty_input_sentinels (s b a : Nat) :
    calculate_prefix_range [] = (32, 0) ∧
      merge_all [] = [] ∧
      fregment_nets [] s = [] ∧
      hash_nets [] b = List.replicate b [] ∧
      is_member (build [] s b) a = false :=
  ⟨rfl, rfl, rfl, rfl, rfl⟩

/-! ## Claim C10 -/

/-- C10: for any balance string other than the three recognized values
`no`, `local_ip` and `host`, `generate_balanced_proxy` falls through every
branch and returns `None` (no proxy-selection code at all), rather than
raising an error or falling back to a documented mode. -/
theorem balanced_proxy_unrecognized (proxies : List String) (balance : String)
    (h1 : balance ≠ "no") (h2 : balance ≠ "local_ip") (h3 : balance ≠ "host") :
    generate_balanced_proxy proxies balance = none := by
  unfold generate_balanced_proxy
  rw [if_neg h1, if_neg h2, if_neg h3]

/-- Witness for C10 with the unrecognized balance mode `round_robin`. -/
theorem balanced_proxy_unrecognized_witness :
    generate_balanced_proxy [("PROXY p.example.com:8080")] ("round_robin") = none :=
  balanced_proxy_unrecognized _ _ (by decide) (by decide) (by decide)

/-! ## Prefix range bounds -/

theorem foldl_min_le (l : List Net) :
    ∀ init : Nat, l.foldl (fun acc x => min acc x.prefixlen) init ≤ init := by
  induction l with
  | nil => intro init; exact le_refl _
  | cons h t ih =>
      intro init
      calc t.foldl (fun acc x => min acc x.prefixlen) (min init h.prefixlen)
          ≤ min init h.prefixlen := ih _
        _ ≤ init := Nat.min_le_left _ _

theorem foldl_min_le_mem (l : List Net) :
    ∀ init : Nat, ∀ x ∈ l, l.foldl (fun acc x => min acc x.prefixlen) init ≤ x.prefixlen := by
  induction l with
  | nil => intro _ x hx; simp at hx
  | cons h t ih =>
      intro init x hx
      rcases List.mem_cons.mp hx with hx | hx
      · subst hx
        calc t.foldl (fun acc x => min acc x.prefixlen) (min init x.prefixlen)
            ≤ min init x.prefixlen := foldl_min_le t _
          _ ≤ x.prefixlen := Nat.min_le_right _ _
      · exact ih _ x hx

theorem le_foldl_max (l : List Net) :
    ∀ init : Nat, init ≤ l.foldl (fun acc x => max acc x.prefixlen) init := by
  induction l with
  | nil => intro init; exact le_refl _
  | cons h t ih =>
      intro init
      calc init ≤ max init h.prefixlen := Nat.le_max_left _ _
        _ ≤ t.foldl (fun acc x => max acc x.prefixlen) (max init h.prefixlen) := ih _

theorem mem_le_foldl_max (l : List Net) :
    ∀ init : Nat, ∀ x ∈ l, x.prefixlen ≤ l.foldl (fun acc x => max acc x.prefixlen) init := by
  induction l with
  | nil => intro _ x hx; simp at hx
  | cons h t ih =>
      intro init x hx
      rcases List.mem_cons.mp hx with hx | hx
      · subst hx
        calc x.prefixlen ≤ max init x.prefixlen := Nat.le_max_right _ _
          _ ≤ t.foldl (fun acc x => max acc x.prefixlen) (max init x.prefixlen) :=
            le_foldl_max t _
      · exact ih _ x hx

theorem foldl_max_le (l : List Net) :
    ∀ init : Nat, init ≤ 32 → (∀ x ∈ l, x.prefixlen ≤ 32) →
      l.foldl (fun acc x => max acc x.prefixlen) init ≤ 32 := by
  induction l with
  | nil => intro init h _; exact h
  | cons h t ih =>
      intro init hinit hall
      refine ih _ ?_ fun x hx => hall x (by simp [hx])
      show max init h.prefixlen ≤ 32
      have hh := hall h (by simp)
      omega

theorem cpr_min_le {ns : List Net} {n : Net} (hn : n ∈ ns) :
    (calculate_prefix_range ns).1 ≤ n.prefixlen := by
  cases ns with
  | nil => simp at hn
  | cons h t =>
      rcases List.mem_cons.mp hn with hx | hx
      · subst hx
        exact foldl_min_le t _
      · exact foldl_min_le_mem t _ n hx

theorem cpr_le_max {ns : List Net} {n : Net} (hn : n ∈ ns) :
    n.prefixlen ≤ (calculate_prefix_range ns).2 := by
  cases ns with
  | nil => simp at hn
  | cons h t =>
      rcases List.mem_cons.mp hn with hx | hx
      · subst hx
        exact le_foldl_max t _
      · exact mem_le_foldl_max t _ n hx

theorem cpr_max_le32 {ns : List Net} (hv : ∀ n ∈ ns, n.Valid) :
    (calculate_prefix_range ns).2 ≤ 32 := by
  cases ns with
  | nil => norm_num [calculate_prefix_range]
  | cons h t =>
      exact foldl_max_le t _ (hv h (by simp)).1 fun x hx => (hv x (by simp [hx])).1

/-! ## Matcher arithmetic -/

/-- Masking a 32-bit value with the high-bits mask `2^32 - 2^o` clears its
low `o` bits. -/
theorem land_highmask {a o : Nat} (ha : a < 2 ^ 32) (ho : o ≤ 32) :
    a &&& (2 ^ 32 - 2 ^ o) = a / 2 ^ o * 2 ^ o := by
  apply Nat.eq_of_testBit_eq
  intro i
  have hmask : (2 : Nat) ^ 32 - 2 ^ o = (2 ^ (32 - o) - 1) <<< o := by
    rw [Nat.shiftLeft_eq, Nat.sub_mul, one_mul, ← pow_add, Nat.sub_add_cancel ho]
  have hrhs : a / 2 ^ o * 2 ^ o = (a >>> o) <<< o := by
    rw [Nat.shiftRight_eq_div_pow, Nat.shiftLeft_eq]
  rw [Nat.testBit_land, hmask, hrhs, Nat.testBit_shiftLeft, Nat.testBit_shiftLeft,
    Nat.testBit_two_pow_sub_one, Nat.testBit_shiftRight]
  by_cases hio : o ≤ i
  · have hoi : o + (i - o) = i := by omega
    rw [hoi]
    by_cases hi32 : i < 32
    · have h1 : decide (i ≥ o) = true := by simp [hio]
      have h2 : decide (i - o < 32 - o) = true := by
        simp only [decide_eq_true_eq]
        omega
      rw [h1, h2]
      simp
    · have h2 : a.testBit i = false :=
        Nat.testBit_eq_false_of_lt
          (lt_of_lt_of_le ha (Nat.pow_le_pow_right (by norm_num) (by omega)))
      rw [h2]
      simp
  · have h1 : decide (i ≥ o) = false := by
      simp only [decide_eq_false_iff_not]
      omega
    rw [h1]
    simp

theorem prefixlen2mask_eq {pl : Nat} (h1 : 1 ≤ pl) (h2 : pl ≤ 32) :
    prefixlen2mask pl = 2 ^ 32 - 2 ^ (32 - pl) := by
  unfold prefixlen2mask
  have hm : (32 - pl) % 32 = 32 - pl := Nat.mod_eq_of_lt (by omega)
  rw [hm]
  have hlit : (0xFFFFFFFF : Nat) = 2 ^ 32 - 1 := by norm_num
  rw [hlit]
  have ho : 32 - pl ≤ 31 := by omega
  have hOle : (2 : Nat) ^ (32 - pl) ≤ 2 ^ 32 := Nat.pow_le_pow_right (by norm_num) (by omega)
  have hOpos : (0 : Nat) < 2 ^ (32 - pl) := Nat.two_pow_pos _
  have hP : (2 : Nat) ^ 32 ≤ 2 ^ 32 * 2 ^ (32 - pl) := Nat.le_mul_of_pos_right _ hOpos
  have he : (2 ^ 32 - 1) * 2 ^ (32 - pl)
      = 2 ^ 32 * (2 ^ (32 - pl) - 1) + (2 ^ 32 - 2 ^ (32 - pl)) := by
    have e1 : (2 ^ 32 - 1) * 2 ^ (32 - pl) = 2 ^ 32 * 2 ^ (32 - pl) - 2 ^ (32 - pl) := by
      rw [Nat.sub_mul, one_mul]
    have e2 : 2 ^ 32 * (2 ^ (32 - pl) - 1) = 2 ^ 32 * 2 ^ (32 - pl) - 2 ^ 32 := by
      rw [Nat.mul_comm, Nat.sub_mul, one_mul, Nat.mul_comm]
    omega
  rw [he, Nat.mul_add_mod]
  exact Nat.mod_eq_of_lt (by omega)

theorem rebuild_stored {f : Net} (hv : f.Valid) (ht1 : 1 ≤ f.prefixlen) :
    rebuild_base (storedPair f).1 (storedPair f).2 = f.base := by
  unfold rebuild_base storedPair
  simp only
  have hm : (32 - f.prefixlen) % 32 = 32 - f.prefixlen :=
    Nat.mod_eq_of_lt (by have := hv.1; omega)
  have hdvd : 2 ^ (32 - f.prefixlen) ∣ f.base := hv.size_dvd_base
  rw [hm, Nat.div_mul_cancel hdvd]
  exact Nat.mod_eq_of_lt hv.2.1

theorem matchPair_true {f : Net} (hv : f.Valid) (ht1 : 1 ≤ f.prefixlen) {a : Nat}
    (ha32 : a < 2 ^ 32) (ha : f.mem a) :
    matchPair a (storedPair f) = true := by
  unfold matchPair isInNet
  rw [rebuild_stored hv ht1]
  have hsp2 : (storedPair f).2 = f.prefixlen := rfl
  rw [hsp2, prefixlen2mask_eq ht1 hv.1]
  simp only [beq_iff_eq]
  rw [land_highmask ha32 (by have := hv.1; omega),
    land_highmask hv.2.1 (by have := hv.1; omega)]
  have hdvd : 2 ^ (32 - f.prefixlen) ∣ f.base := hv.size_dvd_base
  rw [Nat.div_mul_cancel hdvd]
  obtain ⟨h1, h2⟩ := ha
  have key : a / 2 ^ (32 - f.prefixlen) = f.base / 2 ^ (32 - f.prefixlen) := by
    have hlt : a - f.base < 2 ^ (32 - f.prefixlen) := by
      have hsz : f.size = 2 ^ (32 - f.prefixlen) := rfl
      rw [hsz] at h2
      omega
    have e : a = f.base + (a - f.base) := by omega
    rw [e, Nat.add_div_of_dvd_right hdvd, Nat.div_eq_of_lt hlt]
    omega
  rw [key, Nat.div_mul_cancel hdvd]

theorem hash_masked_ip_eq {a t B : Nat} (ht1 : 1 ≤ t) :
    hash_masked_ip a t B = a / 2 ^ (32 - t) * 2 ^ (32 - t) % B := by
  unfold hash_masked_ip
  rw [Nat.mod_eq_of_lt (show 32 - t < 32 by omega)]

/-- If some probed prefix length `t` (reachable from `len` in steps of `s`
without passing `maxp`) has a matching pair in its bucket, the lookup loop
answers `true`. -/
theorem lookupAux_reaches (buckets : List (List (Nat × Nat))) (B s maxp a : Nat)
    (hs : 1 ≤ s) :
    ∀ (fuel len t : Nat), len ≤ t → t ≤ maxp → s ∣ (t - len) →
      maxp + 1 - len ≤ fuel →
      (buckets.getD (hash_masked_ip a t B) []).any (matchPair a) = true →
      lookupAux buckets B s maxp a fuel len = true := by
  intro fuel
  induction fuel with
  | zero =>
      intro len t h1 h2 _ hf _
      omega
  | succ f ih =>
      intro len t h1 h2 hdvd hf hmatch
      simp only [lookupAux]
      rw [if_pos (by omega : len ≤ maxp)]
      by_cases heq : len = t
      · subst heq
        rw [if_pos hmatch]
      · have hlt : len < t := by omega
        have hge : len + s ≤ t := by
          obtain ⟨k, hk⟩ := hdvd
          have hk1 : 1 ≤ k := by
            rcases Nat.eq_zero_or_pos k with h0 | h0
            · rw [h0, Nat.mul_zero] at hk
              omega
            · omega
          have : s * 1 ≤ s * k := Nat.mul_le_mul_left s hk1
          omega
        by_cases hm : (buckets.getD (hash_masked_ip a len B) []).any (matchPair a) = true
        · rw [if_pos hm]
        · rw [if_neg hm]
          refine ih (len + s) t (by omega) h2 ?_ (by omega) hmatch
          have he : t - (len + s) = (t - len) - s := by omega
          rw [he]
          exact Nat.dvd_sub' hdvd dvd_rfl

/-! ## Claim C1 -/

/-- C1 (counterexample): matcher soundness fails as stated.  With the valid
input `[1.0.0.0/24, 2.0.0.0/23]`, step 2 and bucket count 7, the address
`2.0.1.5` lies inside `2.0.0.0/23`, yet the generated matcher answers
`false`: the prefix bounds are `[23, 24]`, so the only probed prefix length
is 23, while all stored fragments are /24 networks hashed by their own /24
base addresses — the /23-masked probe hashes into a bucket whose entries do
not contain the address. -/
theorem matcher_sound_cex :
    (1 : Nat) ≤ 2 ∧ (1 : Nat) ≤ 7 ∧
      (∀ x ∈ [(⟨16777216, 24⟩ : Net), ⟨33554432, 23⟩], x.Valid) ∧
      Net.mem ⟨33554432, 23⟩ 33554693 ∧
      is_member (build [⟨16777216, 24⟩, ⟨33554432, 23⟩] 2 7) 33554693 = false := by
  decide

/-- C1 (amended): matcher soundness holds for every step ≥ 1 and bucket
count ≥ 1 *provided* the step divides both computed prefix bounds and the
minimum bound is at least 1: if `a` lies in some input network, the lookup
loop probing `min_prefixlen, min_prefixlen + step, …` finds a stored
`[maskedValue, prefixLen]` pair containing `a`. -/
theorem matcher_sound (input : List Net) (s B a : Nat) (n : Net)
    (hs : 1 ≤ s) (hB : 1 ≤ B)
    (hv : ∀ x ∈ input, x.Valid)
    (hmin1 : 1 ≤ (calculate_prefix_range (merge_all input)).1)
    (hmins : s ∣ (calculate_prefix_range (merge_all input)).1)
    (hmaxs : s ∣ (calculate_prefix_range (merge_all input)).2)
    (hn : n ∈ input) (ha : n.mem a) :
    is_member (build input s B) a = true := by
  obtain ⟨m, hm, hma⟩ := (merge_all_covers hv a).mpr ⟨n, hn, ha⟩
  have hmv : m.Valid := merge_all_valid hv m hm
  have hpmin : (calculate_prefix_range (merge_all input)).1 ≤ m.prefixlen := cpr_min_le hm
  have hpmax : m.prefixlen ≤ (calculate_prefix_range (merge_all input)).2 := cpr_le_max hm
  have hmax32 : (calculate_prefix_range (merge_all input)).2 ≤ 32 :=
    cpr_max_le32 (merge_all_valid hv)
  have hp1 : 1 ≤ m.prefixlen := by omega
  have htge : m.prefixlen ≤ (m.prefixlen - 1) / s * s + s := natTarget_ge hs
  have htdvd : s ∣ (m.prefixlen - 1) / s * s + s := natTarget_dvd _ _
  have htle : (m.prefixlen - 1) / s * s + s ≤ (calculate_prefix_range (merge_all input)).2 :=
    natTarget_le_of_dvd hs hp1 hmaxs hpmax
  have ht32 : (m.prefixlen - 1) / s * s + s ≤ 32 := by omega
  have ht1 : 1 ≤ (m.prefixlen - 1) / s * s + s := by omega
  obtain ⟨f, hf, hfp, hfb, hfv, hfa⟩ := subnetsList_mem_frag hmv htge ht32 hma
  rw [← fregment_net_eq hs hp1 ht32] at hf
  have hfF : f ∈ fregment_nets (merge_all input) s := mem_fregment_nets.mpr ⟨m, hm, hf⟩
  have haW : a < 2 ^ 32 := hmv.mem_lt hma
  have hbuck : f ∈ (hash_nets (fregment_nets (merge_all input) s) B).getD (f.base % B) [] := by
    rw [hash_nets_getD (Nat.mod_lt _ (by omega))]
    rw [List.mem_filter]
    exact ⟨hfF, by simp⟩
  have hkB : f.base % B < (hash_nets (fregment_nets (merge_all input) s) B).length := by
    rw [hash_nets_length]
    exact Nat.mod_lt _ (by omega)
  have hmap : ((hash_nets (fregment_nets (merge_all input) s) B).map
      (List.map storedPair)).getD (f.base % B) []
      = List.map storedPair
          ((hash_nets (fregment_nets (merge_all input) s) B).getD (f.base % B) []) := by
    rw [List.getD_eq_getElem _ _ (by rw [List.length_map]; exact hkB), List.getElem_map,
      List.getD_eq_getElem _ _ hkB]
  have hmatch : (((hash_nets (fregment_nets (merge_all input) s) B).map
      (List.map storedPair)).getD
        (hash_masked_ip a ((m.prefixlen - 1) / s * s + s) B) []).any (matchPair a)
      = true := by
    have hhash : hash_masked_ip a ((m.prefixlen - 1) / s * s + s) B = f.base % B := by
      rw [hash_masked_ip_eq ht1, hfb]
    rw [hhash, hmap, List.any_eq_true]
    exact ⟨storedPair f, List.mem_map_of_mem _ hbuck,
      matchPair_true hfv (by rw [hfp]; exact ht1) haW hfa⟩
  show lookupAux ((hash_nets (fregment_nets (merge_all input) s) B).map
      (List.map storedPair)) B s (calculate_prefix_range (merge_all input)).2 a
      ((calculate_prefix_range (merge_all input)).2 + 1
        - (calculate_prefix_range (merge_all input)).1)
      (calculate_prefix_range (merge_all input)).1 = true
  exact lookupAux_reaches _ _ _ _ _ hs _ _ ((m.prefixlen - 1) / s * s + s)
    (by omega) htle (Nat.dvd_sub' htdvd hmins) (le_refl _) hmatch

/-- Witness for C1 at input `[1.0.0.0/24]`, step 2 (which divides the prefix
bounds 24, 24), bucket count 3, address `1.0.0.84`. -/
theorem matcher_sound_witness :
    is_member (build [⟨16777216, 24⟩] 2 3) 16777300 = true :=
  matcher_sound [⟨16777216, 24⟩] 2 3 16777300 ⟨16777216, 24⟩ (by decide) (by decide)
    (by decide) (by decide) (by decide) (by decide) (by decide) (by decide)

end FloraPac
